import Mathlib

/-!
Verification of the aggregation and analytics core of fb-weekly-analyzer.

The JavaScript source is shallowly embedded: JS numbers that hold metric
values are modelled as `ℤ` (the input contract guarantees non-negative
integers), intermediate divisions are exact rationals `ℚ`, `Math.round`
is `jsRound` (round half toward positive infinity), JS objects used as
keyed dictionaries are association lists in insertion order, and the
stable `Array.prototype.sort` is modelled by `List.insertionSort` with a
non-strict relation (both are stable sorts, hence extensionally equal).
-/

/-- Embeds JavaScript `Math.round`: rounds half toward positive infinity. -/
def jsRound (q : ℚ) : ℤ := ⌊q + 1 / 2⌋

/-- Embeds `String(...).padStart(2, '0')`: left-pads with zeros to length 2. -/
def padStart2 (s : String) : String :=
  String.mk (List.replicate (2 - s.length) '0' ++ s.data)

/-- Numeric value of a decimal digit character. -/
def digitVal (c : Char) : ℤ := (c.toNat : ℤ) - 48

/-- Embeds `new Date(startDate).getMonth() + 1` for an ISO `"YYYY-MM-DD"`
string read in UTC: the month is the two digits at positions 5 and 6. -/
def monthFromISO (s : String) : ℤ :=
  10 * digitVal (s.data.getD 5 '0') + digitVal (s.data.getD 6 '0')

/-- Whether the first character list is an initial segment of the second. -/
def leadMatches : List Char → List Char → Bool
  | [], _ => true
  | _ :: _, [] => false
  | a :: as, b :: bs => a = b && leadMatches as bs

/-- Whether the first character list occurs contiguously inside the second. -/
def containsSeq (sub : List Char) : List Char → Bool
  | [] => sub.isEmpty
  | c :: cs => leadMatches sub (c :: cs) || containsSeq sub cs

/-- Whether string `sub` occurs as a contiguous substring of `s`. -/
def strContainsStr (s sub : String) : Bool := containsSeq sub.data s.data

/-- A Facebook page: `{pageId, pageName}` from `weekly_models.js`. -/
structure Page where
  pageId : String
  pageName : String
deriving DecidableEq, Repr

/-- A week period: `WeekPeriod` from `weekly_models.js`, with ISO date strings. -/
structure WeekPeriod where
  year : ℤ
  week : ℤ
  startDate : String
  endDate : String
deriving DecidableEq, Repr

/-- The metric pair of one page in one week. -/
structure Metrics where
  reach : ℤ
  engagements : ℤ
deriving DecidableEq, Repr

/-- One weekly record: `WeeklyPageData` from `weekly_models.js`. -/
structure WeeklyPageData where
  page : Page
  period : WeekPeriod
  metrics : Metrics
  status : String
deriving DecidableEq, Repr

/-- The numeric metric selector strings `'reach'` / `'engagements'`. -/
inductive Metric
  | reach
  | engagements
deriving DecidableEq, Repr

/-- Embeds the dynamic access `data.metrics[metric]`. -/
def getMetric (ms : Metrics) : Metric → ℤ
  | .reach => ms.reach
  | .engagements => ms.engagements

/-- Embeds `WeekPeriod.getPeriodKey`: the template literal `"{year}_{week}"`. -/
def getPeriodKey (p : WeekPeriod) : String :=
  toString p.year ++ "_" ++ toString p.week

/-- Embeds `WeekPeriod.getMonthNumber` (month 1-12 read from `startDate`). -/
def getMonthNumber (p : WeekPeriod) : ℤ := monthFromISO p.startDate

/-!  ## Reach calculator (`reach_calculator.js`)  -/

/-- Embeds `calculateAverageReach`: `0` on empty or missing input, otherwise
`Math.round(total / length)` where `total` is the plain sum. -/
def calculateAverageReach (reachValues : List ℤ) : ℤ :=
  if reachValues.isEmpty then 0
  else jsRound ((reachValues.sum : ℚ) / (reachValues.length : ℚ))

/-- Embeds `detectIncorrectReachSum`: `null` when `weekCount <= 1`, a warning
string when the candidate value exceeds `10,000,000`, otherwise `null`.
`toLocaleString` is modelled as plain `toString` (the claim only concerns
nullness, not digit grouping). -/
def detectIncorrectReachSum (suspectedSum weekCount : ℤ) : Option String :=
  if weekCount ≤ 1 then none
  else if 10000000 < suspectedSum then
    some ("VARNING: Detta reach-värde (" ++ toString suspectedSum ++
      ") verkar misstänkt högt. Har reach summerats felaktigt över " ++
      toString weekCount ++ " veckor istället för att beräkna genomsnitt?")
  else none

/-!  ## Metric categorizer (`metric_categorizer.js`)  -/

/-- One entry of `METRIC_DEFINITIONS`. -/
structure MetricDef where
  key : String
  displayName : String
  category : String
  canSum : Bool
  aggregationMethod : String
  formatType : String
  warningMessage : Option String
deriving DecidableEq, Repr

/-- The `reach` registry entry. -/
def reachDef : MetricDef :=
  { key := "reach", displayName := "Räckvidd", category := "non_summable"
  , canSum := false, aggregationMethod := "average", formatType := "number"
  , warningMessage := some "Reach kan ALDRIG summeras över veckor. Använd genomsnitt." }

/-- The `engagements` registry entry. -/
def engagementsDef : MetricDef :=
  { key := "engagements", displayName := "Engagemang", category := "summable"
  , canSum := true, aggregationMethod := "sum", formatType := "number"
  , warningMessage := none }

/-- The `status` registry entry. -/
def statusDef : MetricDef :=
  { key := "status", displayName := "Status", category := "metadata"
  , canSum := false, aggregationMethod := "none", formatType := "string"
  , warningMessage := none }

/-- The `comment` registry entry. -/
def commentDef : MetricDef :=
  { key := "comment", displayName := "Kommentar", category := "metadata"
  , canSum := false, aggregationMethod := "none", formatType := "string"
  , warningMessage := none }

/-- Embeds the key lookup `METRIC_DEFINITIONS[metricKey]`. -/
def METRIC_DEFINITIONS (metricKey : String) : Option MetricDef :=
  if metricKey = "reach" then some reachDef
  else if metricKey = "engagements" then some engagementsDef
  else if metricKey = "status" then some statusDef
  else if metricKey = "comment" then some commentDef
  else none

/-- Embeds `canSumMetric`: `metric ? metric.canSum : false`. -/
def canSumMetric (metricKey : String) : Bool :=
  match METRIC_DEFINITIONS metricKey with
  | some m => m.canSum
  | none => false

/-- Embeds `getAggregationMethod`: `metric ? metric.aggregationMethod : 'none'`. -/
def getAggregationMethod (metricKey : String) : String :=
  match METRIC_DEFINITIONS metricKey with
  | some m => m.aggregationMethod
  | none => "none"

/-- The `{isValid, errorMessage}` result object. -/
structure ValidationResult where
  isValid : Bool
  errorMessage : Option String
deriving DecidableEq, Repr

/-- Embeds `validateAggregationMethod` from `metric_categorizer.js`. -/
def validateAggregationMethod (metricKey attemptedMethod : String) : ValidationResult :=
  match METRIC_DEFINITIONS metricKey with
  | none => { isValid := false, errorMessage := some ("Okänd metric: " ++ metricKey) }
  | some m =>
    if attemptedMethod ≠ m.aggregationMethod then
      { isValid := false
      , errorMessage := some ("Felaktig aggregeringsmetod för " ++ m.displayName ++
          ". Använd \"" ++ m.aggregationMethod ++ "\" istället för \"" ++
          attemptedMethod ++ "\". " ++ m.warningMessage.getD "") }
    else { isValid := true, errorMessage := none }

/-!  ## Analytics (`weekly_analytics.js`)  -/

/-- Embeds `calculateWeekOverWeekChange`: `100`/`0` when the previous value is
zero, otherwise the percent change rounded to one decimal place. -/
def calculateWeekOverWeekChange (currentValue previousValue : ℚ) : ℚ :=
  if previousValue = 0 then (if 0 < currentValue then 100 else 0)
  else (jsRound ((currentValue - previousValue) / previousValue * 100 * 10) : ℚ) / 10

/-- Embeds JavaScript `Math.ceil` on an exact rational. -/
def jsCeil (q : ℚ) : ℤ := ⌈q⌉

/-- The `{min, max, average, median, total}` result of `calculateMetricStatistics`. -/
structure MetricStats where
  min : ℤ
  max : ℤ
  average : ℤ
  median : ℤ
  total : ℤ
deriving DecidableEq, Repr

/-- Embeds `calculateMetricStatistics`: min/max via `Math.min`/`Math.max` over
the values, `total` as the plain sum, `average = Math.round(total / length)`,
and the median as the middle of the ascending numeric sort (the even-count
branch applies `Math.round` to the mean of the two middle values). -/
def calculateMetricStatistics (weeklyDataArray : List WeeklyPageData) (metric : Metric) :
    MetricStats :=
  if weeklyDataArray.isEmpty then ⟨0, 0, 0, 0, 0⟩
  else
    let values : List ℤ := weeklyDataArray.map (fun d => getMetric d.metrics metric)
    let mn : ℤ := values.foldl Min.min (values.headD 0)
    let mx : ℤ := values.foldl Max.max (values.headD 0)
    let total : ℤ := values.foldl (· + ·) 0
    let average : ℤ := jsRound ((total : ℚ) / (values.length : ℚ))
    let sortedv : List ℤ := List.insertionSort (· ≤ ·) values
    let mid : ℕ := values.length / 2
    let median : ℤ :=
      if values.length % 2 = 0 then
        jsRound (((sortedv.getD (mid - 1) 0 + sortedv.getD mid 0 : ℤ) : ℚ) / 2)
      else sortedv.getD mid 0
    ⟨mn, mx, average, median, total⟩

/-- One row of the ranking returned by `rankPagesByMetric`. -/
structure RankEntry where
  rank : ℕ
  page : Page
  value : ℤ
  status : String
deriving DecidableEq, Repr

/-- Embeds `rankPagesByMetric`: map to `{rank: 0, page, value, status}`,
stable-sort descending by value, then assign `rank = index + 1`. -/
def rankPagesByMetric (weeklyDataArray : List WeeklyPageData) (metric : Metric) :
    List RankEntry :=
  if weeklyDataArray.isEmpty then []
  else
    ((List.insertionSort (fun a b : RankEntry => b.value ≤ a.value)
        (weeklyDataArray.map (fun d =>
          { rank := 0, page := d.page, value := getMetric d.metrics metric
          , status := d.status }))).enum).map
      (fun p => { p.2 with rank := p.1 + 1 })

/-- Rank-independent projection of a `RankEntry`, used to state stability. -/
def rankProj (e : RankEntry) : Page × ℤ × String := (e.page, e.value, e.status)

/-!  ### Consistent-growth detection  -/

/-- One result row of `findConsistentGrowth`. -/
structure GrowthEntry where
  page : Page
  consecutiveWeeks : ℕ
  totalWeeks : ℕ
deriving DecidableEq, Repr

/-- Placeholder record for the (unreachable) head of an empty sorted list. -/
def defaultRecord : WeeklyPageData := ⟨⟨"", ""⟩, ⟨0, 0, "", ""⟩, ⟨0, 0⟩, ""⟩

/-- Lexicographic comparison of character lists by code point: the order
`localeCompare` induces on ASCII ISO date strings. -/
def charListLe : List Char → List Char → Bool
  | [], _ => true
  | _ :: _, [] => false
  | a :: as, b :: bs =>
    if a.toNat < b.toNat then true
    else if b.toNat < a.toNat then false
    else charListLe as bs

/-- Embeds the stable `sort((a, b) => a.period.startDate.localeCompare(b.period.startDate))`
used throughout the source (lexicographic on ISO date strings). -/
def sortByStartDate (l : List WeeklyPageData) : List WeeklyPageData :=
  List.insertionSort
    (fun a b => charListLe a.period.startDate.data b.period.startDate.data = true) l

/-- The growth-counting loop of `findConsistentGrowth`: `streak` is the current
run of strictly increasing steps ending at `prev`, `maxRun` the best seen. -/
def runLoop : ℤ → ℕ → ℕ → List ℤ → ℕ
  | _, _, maxRun, [] => maxRun
  | prev, streak, maxRun, v :: vs =>
    if prev < v then runLoop v (streak + 1) (max maxRun (streak + 1)) vs
    else runLoop v 0 maxRun vs

/-- The longest run of strictly increasing consecutive steps, as computed by
the loop in `findConsistentGrowth` (`consecutiveGrowthWeeks` / `maxConsecutiveGrowth`). -/
def maxGrowthRun : List ℤ → ℕ
  | [] => 0
  | v :: vs => runLoop v 0 0 vs

/-- The run length computed for one page's chronologically sorted values. -/
def pageRun (metric : Metric) (pageData : List WeeklyPageData) : ℕ :=
  maxGrowthRun ((sortByStartDate pageData).map (fun r => getMetric r.metrics metric))

/-- The result row `{page, consecutiveWeeks, totalWeeks}` built for one page. -/
def growthEntryOf (metric : Metric) (pageData : List WeeklyPageData) : GrowthEntry :=
  { page := ((sortByStartDate pageData).headD defaultRecord).page
  , consecutiveWeeks := pageRun metric pageData
  , totalWeeks := (sortByStartDate pageData).length }

/-- Embeds `findConsistentGrowth`: pages with fewer than `minWeeks + 1` records
are skipped, a page qualifies when its longest growth run reaches `minWeeks`,
and the result is sorted descending by run length. The `{pageId: [...]}` input
object is an association list in insertion order. -/
def findConsistentGrowth (dataByPage : List (String × List WeeklyPageData))
    (metric : Metric) (minWeeks : ℕ) : List GrowthEntry :=
  List.insertionSort (fun a b : GrowthEntry => b.consecutiveWeeks ≤ a.consecutiveWeeks)
    (dataByPage.filterMap (fun kv =>
      if kv.2.length < minWeeks + 1 then none
      else if minWeeks ≤ pageRun metric kv.2 then some (growthEntryOf metric kv.2)
      else none))

/-- The reference notion for C6: the longest strictly increasing run of
consecutive elements (counted in steps) is `n`. -/
def LongestRunIs (vals : List ℤ) (n : ℕ) : Prop :=
  (vals ≠ [] → ∃ l₁ c l₂, vals = l₁ ++ (c ++ l₂) ∧ List.Chain' (· < ·) c ∧
    c.length = n + 1) ∧
  (∀ l₁ c l₂, vals = l₁ ++ (c ++ l₂) → List.Chain' (· < ·) c → c.length ≤ n + 1)

/-- Longest strictly increasing run starting at the head, in steps; reference
definition used to reason about `runLoop`. -/
def headRun : List ℤ → ℕ
  | [] => 0
  | [_] => 0
  | x :: y :: t => if x < y then headRun (y :: t) + 1 else 0

/-- Longest strictly increasing run anywhere in the list, in steps; reference
definition used to reason about `runLoop`. -/
def bestRun : List ℤ → ℕ
  | [] => 0
  | x :: t => max (headRun (x :: t)) (bestRun t)

/-!  ### Aggregation service (`aggregation_service.js`)  -/

/-- One step of the JS object-building `forEach`: append the record to the
group of its key, creating the group at the end on first sight (JS string-keyed
objects preserve insertion order). -/
def pushGroup {α : Type} (key : α → String) :
    List (String × List α) → α → List (String × List α)
  | [], r => [(key r, [r])]
  | (k, g) :: rest, r =>
    if key r = k then (k, g ++ [r]) :: rest else (k, g) :: pushGroup key rest r

/-- Grouping a record list by a key function, as the JS `forEach` does. -/
def groupRecords {α : Type} (key : α → String) (l : List α) : List (String × List α) :=
  l.foldl (pushGroup key) []

/-- Embeds the JS property access `obj[k]` on an object modelled as an
association list. -/
def lookupGroup? {β : Type} : List (String × β) → String → Option β
  | [], _ => none
  | (k', v) :: rest, k => if k' = k then some v else lookupGroup? rest k

/-- The aggregated per-group payload shared by `aggregateByPage` /
`aggregateByWeek` / `aggregateByMonth` / `aggregateByQuarter`: member records,
running engagement total, average reach, and member count (`weekCount` /
`pageCount` in the source). -/
structure AggGroup where
  members : List WeeklyPageData
  totalEngagements : ℤ
  averageReach : ℤ
  count : ℕ
deriving DecidableEq, Repr

/-- The per-group payload: the running `+=` accumulation of engagements and the
`++` count are written as their extensional values over the final member list,
and `averageReach` is the second-pass `calculateAverageReach` call. -/
def mkAggGroup (g : List WeeklyPageData) : AggGroup :=
  { members := g
  , totalEngagements := g.foldl (fun s r => s + r.metrics.engagements) 0
  , averageReach := calculateAverageReach (g.map (fun r => r.metrics.reach))
  , count := g.length }

/-- The grouping key of `aggregateByPage`: `data.page.pageId`. -/
def pageKey (r : WeeklyPageData) : String := r.page.pageId

/-- The grouping key of `aggregateByWeek`: `data.period.getPeriodKey()`. -/
def weekKeyOf (r : WeeklyPageData) : String := getPeriodKey r.period

/-- The grouping key of `aggregateByMonth`:
`"{year}_{String(monthNumber).padStart(2, '0')}"`. -/
def monthKeyOf (r : WeeklyPageData) : String :=
  toString r.period.year ++ "_" ++ padStart2 (toString (getMonthNumber r.period))

/-- The grouping key of `aggregateByQuarter`: `"{year}_Q{Math.ceil(month / 3)}"`. -/
def quarterKeyOf (r : WeeklyPageData) : String :=
  toString r.period.year ++ "_Q" ++ toString (jsCeil ((getMonthNumber r.period : ℚ) / 3))

/-- Embeds `aggregateByPage`. -/
def aggregateByPage (weeklyDataArray : List WeeklyPageData) : List (String × AggGroup) :=
  (groupRecords pageKey weeklyDataArray).map (fun p => (p.1, mkAggGroup p.2))

/-- Embeds `aggregateByWeek`. -/
def aggregateByWeek (weeklyDataArray : List WeeklyPageData) : List (String × AggGroup) :=
  (groupRecords weekKeyOf weeklyDataArray).map (fun p => (p.1, mkAggGroup p.2))

/-- Embeds `aggregateByMonth`. -/
def aggregateByMonth (weeklyDataArray : List WeeklyPageData) : List (String × AggGroup) :=
  (groupRecords monthKeyOf weeklyDataArray).map (fun p => (p.1, mkAggGroup p.2))

/-- Embeds `aggregateByQuarter`. -/
def aggregateByQuarter (weeklyDataArray : List WeeklyPageData) : List (String × AggGroup) :=
  (groupRecords quarterKeyOf weeklyDataArray).map (fun p => (p.1, mkAggGroup p.2))

/-- The C2 correctness contract of one grouping function with key `f`: the
looked-up group of any key is exactly the records with that key, its
`totalEngagements` is their plain engagement sum, its `averageReach` is the
half-up-rounded arithmetic mean of their reach values — and never their sum
when there is more than one all-positive value — and its count is the group
size. -/
def AggSpec (f : WeeklyPageData → String) (agg : List (String × AggGroup))
    (l : List WeeklyPageData) (k : String) : Prop :=
  (l.filter (fun r => f r = k) = [] → lookupGroup? agg k = none) ∧
  (l.filter (fun r => f r = k) ≠ [] →
    lookupGroup? agg k = some (mkAggGroup (l.filter (fun r => f r = k))) ∧
    (mkAggGroup (l.filter (fun r => f r = k))).members = l.filter (fun r => f r = k) ∧
    (mkAggGroup (l.filter (fun r => f r = k))).totalEngagements =
      ((l.filter (fun r => f r = k)).map (fun r => r.metrics.engagements)).sum ∧
    (mkAggGroup (l.filter (fun r => f r = k))).count =
      (l.filter (fun r => f r = k)).length ∧
    (mkAggGroup (l.filter (fun r => f r = k))).averageReach =
      jsRound ((Int.cast (((l.filter (fun r => f r = k)).map
          (fun r => r.metrics.reach)).sum) : ℚ) /
        ((l.filter (fun r => f r = k)).length : ℚ)) ∧
    (1 < (l.filter (fun r => f r = k)).length →
      (∀ r ∈ l.filter (fun r => f r = k), 0 < r.metrics.reach) →
      (mkAggGroup (l.filter (fun r => f r = k))).averageReach ≠
        ((l.filter (fun r => f r = k)).map (fun r => r.metrics.reach)).sum))

/-!  ### Pivot table (`createPivotTable`)  -/

/-- Embeds `[...new Set(xs)]`: distinct elements in first-occurrence order. -/
def dedupFirst : List String → List String
  | [] => []
  | x :: xs => x :: dedupFirst (xs.filter (fun y => y ≠ x))
termination_by l => l.length
decreasing_by
  simp only [List.length_cons]
  exact Nat.lt_succ_of_le (List.length_filter_le _ _)

/-- One row of the pivot structure: `{page, weeks: {periodKey: value}}`. -/
structure PivotRow where
  page : Page
  weeks : List (String × ℤ)
deriving DecidableEq, Repr

/-- The `{pages, weeks, data, metric}` result of `createPivotTable`. -/
structure PivotTable where
  pages : List String
  weeks : List String
  data : List (String × PivotRow)
  metric : Metric
deriving DecidableEq, Repr

/-- Embeds the JS assignment `weeksObj[weekKey] = value`: overwrite an existing
entry in place, otherwise append. -/
def setWeekVal : List (String × ℤ) → String → ℤ → List (String × ℤ)
  | [], wk, v => [(wk, v)]
  | (w, x) :: rest, wk, v =>
    if w = wk then (w, v) :: rest else (w, x) :: setWeekVal rest wk v

/-- One step of the pivot-building `forEach`: create the page row on first
sight (keeping the first record's `page` object), then set this week's value. -/
def pivotStep (metric : Metric) :
    List (String × PivotRow) → WeeklyPageData → List (String × PivotRow)
  | [], r => [(pageKey r, ⟨r.page, [(weekKeyOf r, getMetric r.metrics metric)]⟩)]
  | (pid, row) :: rest, r =>
    if pageKey r = pid then
      (pid, ⟨row.page, setWeekVal row.weeks (weekKeyOf r) (getMetric r.metrics metric)⟩) :: rest
    else (pid, row) :: pivotStep metric rest r

/-- Embeds `createPivotTable`: unique pages in first-occurrence order, unique
period keys sorted lexicographically, and the page-by-week value matrix. -/
def createPivotTable (weeklyDataArray : List WeeklyPageData) (metric : Metric) : PivotTable :=
  { pages := dedupFirst (weeklyDataArray.map pageKey)
  , weeks := List.insertionSort (· ≤ ·) (dedupFirst (weeklyDataArray.map weekKeyOf))
  , data := weeklyDataArray.foldl (pivotStep metric) []
  , metric := metric }

/-- Looks a metric value up in the built pivot: `data[pageId].weeks[periodKey]`. -/
def pivotLookup (data : List (String × PivotRow)) (pid wk : String) : Option ℤ :=
  (lookupGroup? data pid).bind (fun row => lookupGroup? row.weeks wk)

/-- The value of the last record matching `(pid, wk)` — what repeated JS
assignment leaves behind. -/
def lastMatchVal (metric : Metric) (l : List WeeklyPageData) (pid wk : String) : Option ℤ :=
  ((l.filter (fun r => pageKey r = pid ∧ weekKeyOf r = wk)).getLast?).map
    (fun r => getMetric r.metrics metric)

/-!  ### Concrete inputs used by witnesses and the counterexample  -/

/-- Builds one weekly record with status `"OK"`. -/
def mkRecord (pid pname : String) (year week : ℤ) (sd ed : String) (reach eng : ℤ) :
    WeeklyPageData :=
  ⟨⟨pid, pname⟩, ⟨year, week, sd, ed⟩, ⟨reach, eng⟩, "OK"⟩

/-- Two weeks of one page: reach `100000` / `120000`, engagements `500` / `700`. -/
def aggDemo : List WeeklyPageData :=
  [ mkRecord "P1" "Page One" 2025 41 "2025-10-06" "2025-10-12" 100000 500
  , mkRecord "P1" "Page One" 2025 42 "2025-10-13" "2025-10-19" 120000 700 ]

/-- Four weeks with engagements `10, 20, 30, 40`. -/
def statDemo4 : List WeeklyPageData :=
  [ mkRecord "P1" "Page One" 2025 1 "2025-01-06" "2025-01-12" 11 10
  , mkRecord "P1" "Page One" 2025 2 "2025-01-13" "2025-01-19" 12 20
  , mkRecord "P1" "Page One" 2025 3 "2025-01-20" "2025-01-26" 13 30
  , mkRecord "P1" "Page One" 2025 4 "2025-01-27" "2025-02-02" 14 40 ]

/-- Two weeks with engagements `10, 11`: the two middle values of the median
computation have an odd sum. -/
def statDemo2 : List WeeklyPageData :=
  [ mkRecord "P1" "Page One" 2025 1 "2025-01-06" "2025-01-12" 11 10
  , mkRecord "P1" "Page One" 2025 2 "2025-01-13" "2025-01-19" 12 11 ]

/-- Three records of distinct pages in one week, distinct `(periodKey, pageId)`
pairs across two weeks. -/
def pivotDemo : List WeeklyPageData :=
  [ mkRecord "P1" "Page One" 2025 41 "2025-10-06" "2025-10-12" 100 500
  , mkRecord "P2" "Page Two" 2025 41 "2025-10-06" "2025-10-12" 200 600
  , mkRecord "P1" "Page One" 2025 42 "2025-10-13" "2025-10-19" 300 700 ]

/-- One page with chronological engagements `10, 20, 30, 25`. -/
def growthPage : List WeeklyPageData :=
  [ mkRecord "P1" "Page One" 2025 2 "2025-01-06" "2025-01-12" 100 10
  , mkRecord "P1" "Page One" 2025 3 "2025-01-13" "2025-01-19" 100 20
  , mkRecord "P1" "Page One" 2025 4 "2025-01-20" "2025-01-26" 100 30
  , mkRecord "P1" "Page One" 2025 5 "2025-01-27" "2025-02-02" 100 25 ]

/-- The growth scenario input object `{P1: [...]}`. -/
def growthDemo : List (String × List WeeklyPageData) := [("P1", growthPage)]

/-!  ## Helper lemmas  -/

theorem length_le_sum_of_pos : ∀ (v : List ℤ), (∀ x ∈ v, 0 < x) → (v.length : ℤ) ≤ v.sum := by
  intro v hv
  induction v with
  | nil => simp
  | cons a t ih =>
    have ha : 0 < a := hv a (List.mem_cons_self a t)
    have ht : (t.length : ℤ) ≤ t.sum := ih (fun x hx => hv x (List.mem_cons_of_mem a hx))
    simp only [List.length_cons, List.sum_cons]
    push_cast
    omega

/-- The rounded arithmetic mean of more than one positive integer is strictly
below their sum: the non-summability guarantee behind reach averaging. -/
theorem jsRound_mean_ne_sum (v : List ℤ) (hlen : 1 < v.length) (hpos : ∀ x ∈ v, 0 < x) :
    jsRound ((v.sum : ℚ) / (v.length : ℚ)) ≠ v.sum := by
  intro h
  have hn : (2 : ℚ) ≤ (v.length : ℚ) := by exact_mod_cast hlen
  have hs : (v.length : ℤ) ≤ v.sum := length_le_sum_of_pos v hpos
  have hs2 : (2 : ℤ) ≤ v.sum := le_trans (by exact_mod_cast hlen) hs
  have hsq : (2 : ℚ) ≤ (v.sum : ℚ) := by exact_mod_cast hs2
  have hdiv : (v.sum : ℚ) / (v.length : ℚ) ≤ (v.sum : ℚ) / 2 := by
    apply div_le_div_of_nonneg_left (by linarith) (by norm_num) hn
  have hfloor : (jsRound ((v.sum : ℚ) / (v.length : ℚ)) : ℚ) ≤ (v.sum : ℚ) / (v.length : ℚ) + 1 / 2 :=
    Int.floor_le _
  have hlt : ((v.sum : ℚ) / 2) + 1 / 2 < (v.sum : ℚ) := by linarith
  have : (jsRound ((v.sum : ℚ) / (v.length : ℚ)) : ℚ) < (v.sum : ℚ) := by linarith
  rw [h] at this
  exact absurd this (lt_irrefl _)

theorem filter_orderedInsert_pos {α : Type} (r : α → α → Prop) [DecidableRel r]
    (p : α → Bool) (x : α) (l : List α) (hx : p x = true)
    (h : ∀ y ∈ l, p y = true → r x y) :
    (List.orderedInsert r x l).filter p = x :: l.filter p := by
  induction l with
  | nil => simp [List.orderedInsert, List.filter, hx]
  | cons y ys ih =>
    by_cases hr : r x y
    · simp [List.orderedInsert, hr, List.filter_cons, hx]
    · have hy : p y = false := by
        cases hpy : p y
        · rfl
        · exact absurd (h y (List.mem_cons_self y ys) hpy) hr
      have ih' := ih (fun z hz hpz => h z (List.mem_cons_of_mem y hz) hpz)
      simp [List.orderedInsert, hr, List.filter_cons, hy, ih']

theorem filter_orderedInsert_neg {α : Type} (r : α → α → Prop) [DecidableRel r]
    (p : α → Bool) (x : α) (l : List α) (hx : p x = false) :
    (List.orderedInsert r x l).filter p = l.filter p := by
  induction l with
  | nil => simp [List.orderedInsert, List.filter, hx]
  | cons y ys ih =>
    by_cases hr : r x y
    · simp [List.orderedInsert, hr, List.filter_cons, hx]
    · simp [List.orderedInsert, hr, List.filter_cons, ih]

/-- A stable sort does not disturb the relative order of elements that are all
mutually tied under the sorting relation. -/
theorem filter_insertionSort {α : Type} (r : α → α → Prop) [DecidableRel r]
    (p : α → Bool) (htie : ∀ a b, p a = true → p b = true → r a b) (l : List α) :
    (List.insertionSort r l).filter p = l.filter p := by
  induction l with
  | nil => rfl
  | cons x xs ih =>
    show (List.orderedInsert r x (List.insertionSort r xs)).filter p = _
    by_cases hx : p x = true
    · rw [filter_orderedInsert_pos r p x _ hx (fun y _ hpy => htie x y hx hpy), ih]
      simp [List.filter_cons, hx]
    · have hx' : p x = false := by simpa using hx
      rw [filter_orderedInsert_neg r p x _ hx', ih]
      simp [List.filter_cons, hx']

theorem foldl_min_le_init : ∀ (L : List ℤ) (a : ℤ), L.foldl Min.min a ≤ a := by
  intro L
  induction L with
  | nil => intro a; exact le_refl a
  | cons b t ih => intro a; exact le_trans (ih (min a b)) (min_le_left a b)

theorem foldl_min_le_mem : ∀ (L : List ℤ) (a v : ℤ), v ∈ L → L.foldl Min.min a ≤ v := by
  intro L
  induction L with
  | nil => intro a v hv; simp at hv
  | cons b t ih =>
    intro a v hv
    rcases List.mem_cons.mp hv with h | h
    · subst h
      exact le_trans (foldl_min_le_init t (min a v)) (min_le_right a v)
    · exact ih (min a b) v h

theorem foldl_min_mem : ∀ (L : List ℤ) (a : ℤ),
    L.foldl Min.min a = a ∨ L.foldl Min.min a ∈ L := by
  intro L
  induction L with
  | nil => intro a; exact Or.inl rfl
  | cons b t ih =>
    intro a
    rcases ih (min a b) with h | h
    · rcases min_choice a b with hm | hm
      · exact Or.inl (by rw [List.foldl_cons, h, hm])
      · exact Or.inr (by rw [List.foldl_cons, h, hm]; exact List.mem_cons_self b t)
    · exact Or.inr (List.mem_cons_of_mem b h)

theorem foldl_max_le_init : ∀ (L : List ℤ) (a : ℤ), a ≤ L.foldl Max.max a := by
  intro L
  induction L with
  | nil => intro a; exact le_refl a
  | cons b t ih => intro a; exact le_trans (le_max_left a b) (ih (max a b))

theorem foldl_max_le_mem : ∀ (L : List ℤ) (a v : ℤ), v ∈ L → v ≤ L.foldl Max.max a := by
  intro L
  induction L with
  | nil => intro a v hv; simp at hv
  | cons b t ih =>
    intro a v hv
    rcases List.mem_cons.mp hv with h | h
    · subst h
      exact le_trans (le_max_right a v) (foldl_max_le_init t (max a v))
    · exact ih (max a b) v h

theorem foldl_max_mem : ∀ (L : List ℤ) (a : ℤ),
    L.foldl Max.max a = a ∨ L.foldl Max.max a ∈ L := by
  intro L
  induction L with
  | nil => intro a; exact Or.inl rfl
  | cons b t ih =>
    intro a
    rcases ih (max a b) with h | h
    · rcases max_choice a b with hm | hm
      · exact Or.inl (by rw [List.foldl_cons, h, hm])
      · exact Or.inr (by rw [List.foldl_cons, h, hm]; exact List.mem_cons_self b t)
    · exact Or.inr (List.mem_cons_of_mem b h)

theorem foldl_add_eq_sum : ∀ (L : List ℤ) (init : ℤ), L.foldl (· + ·) init = init + L.sum := by
  intro L
  induction L with
  | nil => intro init; simp
  | cons a t ih =>
    intro init
    rw [List.foldl_cons, List.sum_cons, ih (init + a), add_assoc]

theorem foldl_add_map_eq_sum {α : Type} (g : α → ℤ) :
    ∀ (L : List α) (init : ℤ),
      L.foldl (fun s r => s + g r) init = init + (L.map g).sum := by
  intro L
  induction L with
  | nil => intro init; simp
  | cons a t ih =>
    intro init
    rw [List.foldl_cons, List.map_cons, List.sum_cons, ih (init + g a), add_assoc]

/-- Setting the rank after sorting does not change any rank-independent
projection of the entries. -/
theorem map_setRank {β : Type} (f : RankEntry → β)
    (hf : ∀ (e : RankEntry) (k : ℕ), f { e with rank := k } = f e) (L : List RankEntry) :
    (L.enum.map (fun p => { p.2 with rank := p.1 + 1 })).map f = L.map f := by
  rw [List.map_map]
  have h1 : (f ∘ fun p : ℕ × RankEntry => { p.2 with rank := p.1 + 1 }) =
      (f ∘ Prod.snd) := funext fun p => hf p.2 (p.1 + 1)
  rw [h1, ← List.map_map, List.enum_map_snd]

/-!  ## Claim C1  -/

/-- C1: `calculateAverageReach` of a non-empty integer sequence is the
half-up-rounded arithmetic mean, empty input yields `0`, and for more than
one all-positive value the result never equals the sum of the values. -/
theorem c1_averageReach_correct :
    (∀ v : List ℤ, v ≠ [] →
        calculateAverageReach v = jsRound ((v.sum : ℚ) / (v.length : ℚ))) ∧
    calculateAverageReach [] = 0 ∧
    (∀ v : List ℤ, 1 < v.length → (∀ x ∈ v, 0 < x) →
        calculateAverageReach v ≠ v.sum) := by
  refine ⟨?_, rfl, ?_⟩
  · intro v hv
    simp [calculateAverageReach, List.isEmpty_iff, hv]
  · intro v hlen hpos
    have hv : ¬ v.isEmpty := by
      cases v with
      | nil => simp at hlen
      | cons a t => simp
    simp only [calculateAverageReach, hv, if_false, Bool.false_eq_true]
    exact jsRound_mean_ne_sum v hlen hpos

/-- C1 witness: reach values `[100000, 120000]` average to `110000`, which is
not their sum `220000`. -/
theorem c1_averageReach_witness :
    calculateAverageReach [100000, 120000] = 110000 ∧
    calculateAverageReach [100000, 120000] ≠ ([100000, 120000] : List ℤ).sum := by
  refine ⟨by norm_num [calculateAverageReach, jsRound], ?_⟩
  exact c1_averageReach_correct.2.2 [100000, 120000] (by decide) (by decide)

/-!  ## Claim C3  -/

/-- C3: `calculateWeekOverWeekChange` returns `100` when the previous value is
zero and the current one positive, `0` when the previous value is zero and the
current one non-positive, and otherwise the half-up-rounded one-decimal percent
change; in particular equal non-zero arguments and `(0, 0)` both give `0`. -/
theorem c3_weekOverWeekChange_correct :
    (∀ current previous : ℚ, previous = 0 → 0 < current →
        calculateWeekOverWeekChange current previous = 100) ∧
    (∀ current previous : ℚ, previous = 0 → current ≤ 0 →
        calculateWeekOverWeekChange current previous = 0) ∧
    (∀ current previous : ℚ, previous ≠ 0 →
        calculateWeekOverWeekChange current previous =
          (jsRound ((current - previous) / previous * 1000) : ℚ) / 10) ∧
    (∀ x : ℚ, x ≠ 0 → calculateWeekOverWeekChange x x = 0) ∧
    calculateWeekOverWeekChange 0 0 = 0 := by
  refine ⟨?_, ?_, ?_, ?_, by norm_num [calculateWeekOverWeekChange]⟩
  · intro current previous h0 hpos
    simp [calculateWeekOverWeekChange, h0, hpos]
  · intro current previous h0 hnonpos
    simp [calculateWeekOverWeekChange, h0, not_lt.mpr hnonpos]
  · intro current previous hne
    have : (current - previous) / previous * 100 * 10 =
        (current - previous) / previous * 1000 := by ring
    simp [calculateWeekOverWeekChange, hne, this]
  · intro x hx
    have hz : (x - x) / x * 100 * 10 = 0 := by
      field_simp
    rw [calculateWeekOverWeekChange, if_neg hx, hz]
    norm_num [jsRound]

/-- C3 witness: `calculateWeekOverWeekChange 5 5 = 0` via the general theorem
with its non-zero hypothesis discharged at `5`. -/
theorem c3_weekOverWeekChange_witness :
    calculateWeekOverWeekChange 5 5 = 0 ∧ calculateWeekOverWeekChange 7 0 = 100 :=
  ⟨c3_weekOverWeekChange_correct.2.2.2.1 5 (by norm_num),
   c3_weekOverWeekChange_correct.1 7 0 rfl (by norm_num)⟩

/-!  ## Claim C9  -/

/-- C9: `detectIncorrectReachSum` returns a warning exactly when the period
count exceeds `1` and the candidate value exceeds `10,000,000`; in every other
case it returns `null`. -/
theorem c9_detectIncorrectReachSum_correct :
    ∀ value periodCount : ℤ,
      ((detectIncorrectReachSum value periodCount).isSome = true ↔
        (1 < periodCount ∧ 10000000 < value)) ∧
      (detectIncorrectReachSum value periodCount = none ↔
        ¬(1 < periodCount ∧ 10000000 < value)) := by
  intro value periodCount
  unfold detectIncorrectReachSum
  split_ifs with h1 h2 <;> refine ⟨?_, ?_⟩ <;> simp <;> omega

/-!  ## Claim C10  -/

/-- C10: a metric key absent from the registry is never treated as summable:
`canSumMetric` is `false`, `getAggregationMethod` is `'none'`, and
`validateAggregationMethod` fails with the unknown-metric error message. -/
theorem c10_unknown_metric_safe_default :
    ∀ metricKey attemptedMethod : String,
      metricKey ≠ "reach" → metricKey ≠ "engagements" →
      metricKey ≠ "status" → metricKey ≠ "comment" →
      canSumMetric metricKey = false ∧
      getAggregationMethod metricKey = "none" ∧
      (validateAggregationMethod metricKey attemptedMethod).isValid = false ∧
      (validateAggregationMethod metricKey attemptedMethod).errorMessage =
        some ("Okänd metric: " ++ metricKey) := by
  intro metricKey attemptedMethod h1 h2 h3 h4
  have hdef : METRIC_DEFINITIONS metricKey = none := by
    simp [METRIC_DEFINITIONS, h1, h2, h3, h4]
  refine ⟨?_, ?_, ?_, ?_⟩ <;>
    simp [canSumMetric, getAggregationMethod, validateAggregationMethod, hdef]

/-!  ## Claim C7  -/

theorem leadMatches_append (sub rest : List Char) : leadMatches sub (sub ++ rest) = true := by
  induction sub with
  | nil => rfl
  | cons a as ih => simp [leadMatches, ih]

theorem containsSeq_self_append (sub rest : List Char) :
    containsSeq sub (sub ++ rest) = true := by
  cases sub with
  | nil =>
    cases rest with
    | nil => rfl
    | cons c cs => simp [containsSeq, leadMatches]
  | cons a as =>
    have h := leadMatches_append (a :: as) rest
    simp only [List.cons_append] at h
    simp [containsSeq, h]

theorem containsSeq_append_left (sub : List Char) (a l : List Char)
    (h : containsSeq sub l = true) : containsSeq sub (a ++ l) = true := by
  induction a with
  | nil => simpa using h
  | cons c cs ih => simp [containsSeq, ih]

/-- A string whose character data decomposes around `sub` contains `sub` as a
substring. -/
theorem strContains_of_data (msg sub : String) (l₁ l₂ : List Char)
    (hdata : msg.data = l₁ ++ (sub.data ++ l₂)) :
    strContainsStr msg sub = true := by
  unfold strContainsStr
  rw [hdata]
  exact containsSeq_append_left sub.data l₁ _ (containsSeq_self_append sub.data l₂)

/-- C7: for a registered metric key, `validateAggregationMethod` is invalid
exactly when the attempted method differs from the registered aggregation
method; on a match it returns valid with no error message, and on a mismatch
the error message names the correct method. It is a total function and never
throws. -/
theorem c7_validateAggregationMethod_correct :
    ∀ (metricKey attemptedMethod : String) (m : MetricDef),
      METRIC_DEFINITIONS metricKey = some m →
      ((validateAggregationMethod metricKey attemptedMethod).isValid = false ↔
        attemptedMethod ≠ m.aggregationMethod) ∧
      (attemptedMethod = m.aggregationMethod →
        validateAggregationMethod metricKey attemptedMethod =
          { isValid := true, errorMessage := none }) ∧
      (attemptedMethod ≠ m.aggregationMethod →
        ∃ msg, (validateAggregationMethod metricKey attemptedMethod).errorMessage = some msg ∧
          strContainsStr msg m.aggregationMethod = true) := by
  intro metricKey attemptedMethod m hm
  by_cases h : attemptedMethod = m.aggregationMethod
  · exact ⟨by simp [validateAggregationMethod, hm, h],
      fun _ => by simp [validateAggregationMethod, hm, h],
      fun hne => absurd h hne⟩
  · refine ⟨by simp [validateAggregationMethod, hm, h],
      fun heq => absurd heq h, fun _ => ?_⟩
    have hval : (validateAggregationMethod metricKey attemptedMethod).errorMessage =
        some ("Felaktig aggregeringsmetod för " ++ m.displayName ++ ". Använd \"" ++
          m.aggregationMethod ++ "\" istället för \"" ++ attemptedMethod ++ "\". " ++
          m.warningMessage.getD "") := by
      simp [validateAggregationMethod, hm, h]
    refine ⟨_, hval, ?_⟩
    apply strContains_of_data _ _
      (("Felaktig aggregeringsmetod för " ++ m.displayName ++ ". Använd \"").data)
      (("\" istället för \"" ++ attemptedMethod ++ "\". " ++ m.warningMessage.getD "").data)
    simp [String.data_append, List.append_assoc]

/-- C7 witness: `validateAggregationMethod('reach', 'sum')` fails, and its
error message contains the correct method name `average`. -/
theorem c7_validateAggregationMethod_witness :
    (validateAggregationMethod "reach" "sum").isValid = false ∧
    strContainsStr (((validateAggregationMethod "reach" "sum").errorMessage).getD "")
      "average" = true := by
  have h := c7_validateAggregationMethod_correct "reach" "sum" reachDef (by decide)
  refine ⟨h.1.mpr (by decide), ?_⟩
  obtain ⟨msg, hmsg, hsub⟩ := h.2.2 (by decide)
  rw [hmsg]
  exact hsub

/-- C10 witness: the unregistered key `'likes'` with attempted method `'sum'`. -/
theorem c10_unknown_metric_witness :
    canSumMetric "likes" = false ∧
    getAggregationMethod "likes" = "none" ∧
    (validateAggregationMethod "likes" "sum").isValid = false :=
  have h := c10_unknown_metric_safe_default "likes" "sum"
    (by decide) (by decide) (by decide) (by decide)
  ⟨h.1, h.2.1, h.2.2.1⟩

/-!  ## Claim C8  -/

/-- C8: `rankPagesByMetric` keeps the input length, assigns the ranks
`1..n` exactly, orders the values non-increasingly, keeps records with equal
metric values in their original input order, and maps empty input to the empty
list. -/
theorem c8_rankPages_correct (l : List WeeklyPageData) (metric : Metric) :
    (rankPagesByMetric l metric).length = l.length ∧
    (rankPagesByMetric l metric).map RankEntry.rank = List.range' 1 l.length ∧
    List.Sorted (fun a b : ℤ => b ≤ a) ((rankPagesByMetric l metric).map RankEntry.value) ∧
    (∀ v : ℤ,
      ((rankPagesByMetric l metric).map rankProj).filter (fun t => t.2.1 = v) =
        (l.map (fun d => (d.page, getMetric d.metrics metric, d.status))).filter
          (fun t => t.2.1 = v)) ∧
    rankPagesByMetric [] metric = [] := by
  haveI htot : IsTotal RankEntry (fun a b : RankEntry => b.value ≤ a.value) :=
    ⟨fun a b => le_total b.value a.value⟩
  haveI htrans : IsTrans RankEntry (fun a b : RankEntry => b.value ≤ a.value) :=
    ⟨fun _ _ _ h1 h2 => le_trans h2 h1⟩
  cases l with
  | nil => exact ⟨rfl, rfl, List.sorted_nil, fun _ => rfl, rfl⟩
  | cons d ds =>
    have hres : rankPagesByMetric (d :: ds) metric =
        ((List.insertionSort (fun a b : RankEntry => b.value ≤ a.value)
          ((d :: ds).map (fun x =>
            { rank := 0, page := x.page, value := getMetric x.metrics metric
            , status := x.status }))).enum).map
          (fun p => { p.2 with rank := p.1 + 1 }) := by
      simp [rankPagesByMetric]
    have hlen : (List.insertionSort (fun a b : RankEntry => b.value ≤ a.value)
        ((d :: ds).map (fun x =>
          { rank := 0, page := x.page, value := getMetric x.metrics metric
          , status := x.status }))).length = (d :: ds).length := by
      rw [(List.perm_insertionSort _ _).length_eq, List.length_map]
    refine ⟨?_, ?_, ?_, ?_, rfl⟩
    · rw [hres, List.length_map, List.enum_length, hlen]
    · rw [hres, List.map_map]
      have h1 : (RankEntry.rank ∘ fun p : ℕ × RankEntry => { p.2 with rank := p.1 + 1 }) =
          ((fun i => 1 + i) ∘ Prod.fst) := funext fun p => Nat.add_comm p.1 1
      rw [h1, ← List.map_map, List.enum_map_fst, hlen, ← List.range'_eq_map_range]
    · rw [hres, map_setRank RankEntry.value (fun _ _ => rfl)]
      have hs := List.sorted_insertionSort (fun a b : RankEntry => b.value ≤ a.value)
        ((d :: ds).map (fun x =>
          { rank := 0, page := x.page, value := getMetric x.metrics metric
          , status := x.status }))
      exact List.pairwise_map.mpr hs
    · intro v
      rw [hres, map_setRank rankProj (fun _ _ => rfl), List.map_filter,
        filter_insertionSort _ _
          (fun a b ha hb => by
            have ha' : a.value = v := by simpa [rankProj] using ha
            have hb' : b.value = v := by simpa [rankProj] using hb
            rw [ha', hb']),
        ← List.map_filter, List.map_map]
      rfl

/-!  ## Claim C5  -/

/-- Evaluation of `calculateMetricStatistics` on non-empty input, with the
`let` bindings of the source spelled out. -/
theorem calculateMetricStatistics_eq (l : List WeeklyPageData) (metric : Metric)
    (h : l.isEmpty = false) :
    calculateMetricStatistics l metric =
      { min := (l.map (fun d => getMetric d.metrics metric)).foldl Min.min
          ((l.map (fun d => getMetric d.metrics metric)).headD 0)
      , max := (l.map (fun d => getMetric d.metrics metric)).foldl Max.max
          ((l.map (fun d => getMetric d.metrics metric)).headD 0)
      , average := jsRound
          ((((l.map (fun d => getMetric d.metrics metric)).foldl (· + ·) 0 : ℤ) : ℚ) /
            ((l.map (fun d => getMetric d.metrics metric)).length : ℚ))
      , median :=
          if (l.map (fun d => getMetric d.metrics metric)).length % 2 = 0 then
            jsRound ((((List.insertionSort (· ≤ ·)
                (l.map (fun d => getMetric d.metrics metric))).getD
                ((l.map (fun d => getMetric d.metrics metric)).length / 2 - 1) 0 +
              (List.insertionSort (· ≤ ·)
                (l.map (fun d => getMetric d.metrics metric))).getD
                ((l.map (fun d => getMetric d.metrics metric)).length / 2) 0 : ℤ) : ℚ) / 2)
          else (List.insertionSort (· ≤ ·)
              (l.map (fun d => getMetric d.metrics metric))).getD
              ((l.map (fun d => getMetric d.metrics metric)).length / 2) 0
      , total := (l.map (fun d => getMetric d.metrics metric)).foldl (· + ·) 0 } := by
  simp [calculateMetricStatistics, h]

/-- C5 (amended): `calculateMetricStatistics` returns the minimum, maximum and
plain sum of the metric values, `average = round(total/count)` rounded half-up,
and the textbook median over any sorted permutation of the values, except that
the even-count median is the half-up-rounded mean of the two middle values. -/
theorem c5_metricStatistics_correct (l : List WeeklyPageData) (metric : Metric)
    (hne : l ≠ []) (sv : List ℤ)
    (hperm : sv.Perm (l.map (fun d => getMetric d.metrics metric)))
    (hsorted : List.Sorted (· ≤ ·) sv) :
    ((calculateMetricStatistics l metric).min ∈
        l.map (fun d => getMetric d.metrics metric) ∧
      ∀ v ∈ l.map (fun d => getMetric d.metrics metric),
        (calculateMetricStatistics l metric).min ≤ v) ∧
    ((calculateMetricStatistics l metric).max ∈
        l.map (fun d => getMetric d.metrics metric) ∧
      ∀ v ∈ l.map (fun d => getMetric d.metrics metric),
        v ≤ (calculateMetricStatistics l metric).max) ∧
    (calculateMetricStatistics l metric).total =
      (l.map (fun d => getMetric d.metrics metric)).sum ∧
    (calculateMetricStatistics l metric).average =
      jsRound (((l.map (fun d => getMetric d.metrics metric)).sum : ℚ) / (l.length : ℚ)) ∧
    (calculateMetricStatistics l metric).median =
      (if l.length % 2 = 0 then
        jsRound (((sv.getD (l.length / 2 - 1) 0 + sv.getD (l.length / 2) 0 : ℤ) : ℚ) / 2)
      else sv.getD (l.length / 2) 0) := by
  have hempty : l.isEmpty = false := by simpa [List.isEmpty_iff] using hne
  have hvne : l.map (fun d => getMetric d.metrics metric) ≠ [] := by
    simpa [List.map_eq_nil] using hne
  have heq := calculateMetricStatistics_eq l metric hempty
  have hsv : List.insertionSort (· ≤ ·) (l.map (fun d => getMetric d.metrics metric)) = sv :=
    List.eq_of_perm_of_sorted
      ((List.perm_insertionSort _ _).trans hperm.symm)
      (List.sorted_insertionSort _ _) hsorted
  have hhead : (l.map (fun d => getMetric d.metrics metric)).headD 0 ∈
      l.map (fun d => getMetric d.metrics metric) := by
    cases hmem : l.map (fun d => getMetric d.metrics metric) with
    | nil => exact absurd hmem hvne
    | cons a t => simp
  refine ⟨⟨?_, ?_⟩, ⟨?_, ?_⟩, ?_, ?_, ?_⟩
  · rw [heq]
    rcases foldl_min_mem (l.map (fun d => getMetric d.metrics metric))
        ((l.map (fun d => getMetric d.metrics metric)).headD 0) with h | h
    · rw [h]; exact hhead
    · exact h
  · intro v hv
    rw [heq]
    exact foldl_min_le_mem _ _ v hv
  · rw [heq]
    rcases foldl_max_mem (l.map (fun d => getMetric d.metrics metric))
        ((l.map (fun d => getMetric d.metrics metric)).headD 0) with h | h
    · rw [h]; exact hhead
    · exact h
  · intro v hv
    rw [heq]
    exact foldl_max_le_mem _ _ v hv
  · rw [heq]
    simpa using foldl_add_eq_sum (l.map (fun d => getMetric d.metrics metric)) 0
  · rw [heq]
    simp only []
    rw [foldl_add_eq_sum, zero_add, List.length_map]
  · rw [heq]
    simp only [hsv, List.length_map]

/-- C5 witness: engagements `[10, 20, 30, 40]` give median `25`, total `100`
and average `25`, via the general theorem at the sorted witness list. -/
theorem c5_metricStatistics_witness :
    (calculateMetricStatistics statDemo4 Metric.engagements).median = 25 ∧
    (calculateMetricStatistics statDemo4 Metric.engagements).total = 100 ∧
    (calculateMetricStatistics statDemo4 Metric.engagements).average = 25 := by
  have h := c5_metricStatistics_correct statDemo4 Metric.engagements (by decide)
    [10, 20, 30, 40] (List.Perm.refl _) (by norm_num [List.sorted_cons])
  obtain ⟨-, -, htot, havg, hmed⟩ := h
  refine ⟨?_, ?_, ?_⟩
  · rw [hmed]
    norm_num [statDemo4, mkRecord, List.getD, jsRound]
  · rw [htot]
    norm_num [statDemo4, mkRecord, getMetric]
  · rw [havg]
    norm_num [statDemo4, mkRecord, getMetric, jsRound]

/-- C5 counterexample: for engagements `[10, 11]` the code returns median `11`,
while the textbook arithmetic mean of the two middle values is `21/2`: the
even-count median is rounded, not the exact mean. -/
theorem c5_median_counterexample :
    (calculateMetricStatistics statDemo2 Metric.engagements).median = 11 ∧
    ((calculateMetricStatistics statDemo2 Metric.engagements).median : ℚ) ≠ (10 + 11) / 2 := by
  have h : (calculateMetricStatistics statDemo2 Metric.engagements).median = 11 := by
    rw [calculateMetricStatistics_eq statDemo2 Metric.engagements (by decide)]
    norm_num [statDemo2, mkRecord, getMetric, List.insertionSort, List.orderedInsert,
      List.getD, jsRound]
  refine ⟨h, ?_⟩
  rw [h]
  norm_num

/-!  ## Claim C2  -/

theorem lookupGroup?_pushGroup {α : Type} (key : α → String)
    (gs : List (String × List α)) (r : α) (k : String) :
    lookupGroup? (pushGroup key gs r) k =
      if key r = k then some ((lookupGroup? gs k).getD [] ++ [r])
      else lookupGroup? gs k := by
  induction gs with
  | nil => by_cases h : key r = k <;> simp [pushGroup, lookupGroup?, h]
  | cons p rest ih =>
    obtain ⟨k', g⟩ := p
    by_cases h1 : key r = k'
    · by_cases h2 : k' = k
      · subst h2
        simp [pushGroup, lookupGroup?, h1]
      · have hk : ¬ key r = k := fun hh => h2 (h1.symm.trans hh)
        simp [pushGroup, lookupGroup?, h1, h2, hk]
    · by_cases h2 : k' = k
      · subst h2
        simp [pushGroup, lookupGroup?, h1]
      · simp [pushGroup, lookupGroup?, h1, h2, ih]

theorem lookupGroup?_foldl_pushGroup {α : Type} [DecidableEq α] (key : α → String) (k : String) :
    ∀ (l : List α) (gs : List (String × List α)),
      lookupGroup? (l.foldl (pushGroup key) gs) k =
        if l.filter (fun r => key r = k) = [] then lookupGroup? gs k
        else some ((lookupGroup? gs k).getD [] ++ l.filter (fun r => key r = k)) := by
  intro l
  induction l with
  | nil => intro gs; simp
  | cons r rs ih =>
    intro gs
    rw [List.foldl_cons, ih (pushGroup key gs r), lookupGroup?_pushGroup key gs r k]
    by_cases h : key r = k
    · by_cases h2 : rs.filter (fun x => key x = k) = []
      · simp [List.filter_cons, h, h2]
      · simp [List.filter_cons, h, h2]
    · simp [List.filter_cons, h]

theorem lookupGroup?_map {β γ : Type} (f : β → γ) :
    ∀ (gs : List (String × β)) (k : String),
      lookupGroup? (gs.map (fun p => (p.1, f p.2))) k = (lookupGroup? gs k).map f := by
  intro gs
  induction gs with
  | nil => intro k; rfl
  | cons p rest ih =>
    intro k
    obtain ⟨k', v⟩ := p
    by_cases h : k' = k <;> simp [lookupGroup?, h, ih]

theorem lookupGroup?_groupRecords {α : Type} [DecidableEq α] (key : α → String) (l : List α) (k : String) :
    lookupGroup? (groupRecords key l) k =
      if l.filter (fun r => key r = k) = [] then none
      else some (l.filter (fun r => key r = k)) := by
  have h := lookupGroup?_foldl_pushGroup key k l []
  by_cases hf : l.filter (fun r => key r = k) = [] <;>
    simpa [groupRecords, lookupGroup?, hf] using h

/-- The shared correctness argument for all four grouping functions. -/
theorem aggSpec_of_groupRecords (f : WeeklyPageData → String)
    (l : List WeeklyPageData) (k : String) :
    AggSpec f ((groupRecords f l).map (fun p => (p.1, mkAggGroup p.2))) l k := by
  have hlook : lookupGroup? ((groupRecords f l).map (fun p => (p.1, mkAggGroup p.2))) k =
      (lookupGroup? (groupRecords f l) k).map mkAggGroup :=
    lookupGroup?_map mkAggGroup (groupRecords f l) k
  constructor
  · intro h
    rw [hlook, lookupGroup?_groupRecords, if_pos h]
    rfl
  · intro h
    rw [hlook, lookupGroup?_groupRecords, if_neg h]
    have hmapne : (l.filter (fun r => f r = k)).map (fun r => r.metrics.reach) ≠ [] := by
      simpa [List.map_eq_nil_iff] using h
    have hmapempty :
        ((l.filter (fun r => f r = k)).map (fun r => r.metrics.reach)).isEmpty = false := by
      simpa [List.isEmpty_iff] using hmapne
    refine ⟨rfl, rfl, ?_, rfl, ?_, ?_⟩
    · show (l.filter (fun r => f r = k)).foldl (fun s r => s + r.metrics.engagements) 0 = _
      simpa using foldl_add_map_eq_sum (fun r => r.metrics.engagements)
        (l.filter (fun r => f r = k)) 0
    · show calculateAverageReach
        ((l.filter (fun r => f r = k)).map (fun r => r.metrics.reach)) = _
      rw [calculateAverageReach, if_neg (by simp [hmapempty])]
      rw [List.length_map]
    · intro hlen hpos
      show calculateAverageReach
        ((l.filter (fun r => f r = k)).map (fun r => r.metrics.reach)) ≠ _
      rw [calculateAverageReach, if_neg (by simp [hmapempty])]
      exact jsRound_mean_ne_sum _
        (by simpa [List.length_map] using hlen)
        (by
          intro x hx
          obtain ⟨r, hr, hrx⟩ := List.mem_map.mp hx
          exact hrx ▸ hpos r hr)

/-- C2: each of the four grouping functions partitions the records by its key
(page id, `"{year}_{week}"`, `"{year}_{MM}"`, `"{year}_Q{ceil(month/3)}"`) and
gives every group the plain engagement sum, the half-up-rounded mean of the
reach values (never their sum), and the member count. -/
theorem c2_aggregates_correct (l : List WeeklyPageData) (k : String) :
    AggSpec pageKey (aggregateByPage l) l k ∧
    AggSpec weekKeyOf (aggregateByWeek l) l k ∧
    AggSpec monthKeyOf (aggregateByMonth l) l k ∧
    AggSpec quarterKeyOf (aggregateByQuarter l) l k :=
  ⟨aggSpec_of_groupRecords pageKey l k, aggSpec_of_groupRecords weekKeyOf l k,
   aggSpec_of_groupRecords monthKeyOf l k, aggSpec_of_groupRecords quarterKeyOf l k⟩

/-- C2 witness: grouping the two `P1` records gives count `2`, engagement
total `1200`, average reach `110000`, and never the reach sum `220000`. -/
theorem c2_aggregates_witness :
    (lookupGroup? (aggregateByPage aggDemo) "P1").map AggGroup.count = some 2 ∧
    (lookupGroup? (aggregateByPage aggDemo) "P1").map AggGroup.totalEngagements = some 1200 ∧
    (lookupGroup? (aggregateByPage aggDemo) "P1").map AggGroup.averageReach = some 110000 ∧
    (lookupGroup? (aggregateByPage aggDemo) "P1").map AggGroup.averageReach ≠ some 220000 := by
  have hspec := (c2_aggregates_correct aggDemo "P1").1
  have hne : aggDemo.filter (fun r => pageKey r = "P1") ≠ [] := by decide
  obtain ⟨hsome, hmem, htot, hcnt, havg, hneq⟩ := hspec.2 hne
  have hfil : aggDemo.filter (fun r => pageKey r = "P1") = aggDemo := by decide
  refine ⟨?_, ?_, ?_, ?_⟩
  · rw [hsome, Option.map_some']
    rw [hcnt, hfil]
    decide
  · rw [hsome, Option.map_some']
    rw [htot, hfil]
    decide
  · rw [hsome, Option.map_some']
    rw [havg, hfil]
    norm_num [aggDemo, mkRecord, jsRound]
  · rw [hsome, Option.map_some']
    intro hcontra
    have heq : (mkAggGroup (aggDemo.filter (fun r => pageKey r = "P1"))).averageReach =
        220000 := Option.some_injective _ hcontra
    have hsum : ((aggDemo.filter (fun r => pageKey r = "P1")).map
        (fun r => r.metrics.reach)).sum = 220000 := by
      rw [hfil]; decide
    exact hneq (by rw [hfil]; decide) (by rw [hfil]; decide) (heq.trans hsum.symm)

/-!  ## Claim C4  -/

theorem lookupGroup?_setWeekVal (ws : List (String × ℤ)) (wk : String) (v : ℤ)
    (wk' : String) :
    lookupGroup? (setWeekVal ws wk v) wk' =
      if wk = wk' then some v else lookupGroup? ws wk' := by
  induction ws with
  | nil => by_cases h : wk = wk' <;> simp [setWeekVal, lookupGroup?, h]
  | cons p rest ih =>
    obtain ⟨w, x⟩ := p
    by_cases h1 : w = wk
    · subst h1
      by_cases h2 : w = wk' <;> simp [setWeekVal, lookupGroup?, h2]
    · by_cases h2 : w = wk'
      · subst h2
        have hk : ¬ wk = w := fun hh => h1 hh.symm
        simp [setWeekVal, lookupGroup?, h1, hk]
      · simp [setWeekVal, lookupGroup?, h1, h2, ih]

theorem pivotLookup_pivotStep (metric : Metric) (acc : List (String × PivotRow))
    (r : WeeklyPageData) (pid wk : String) :
    pivotLookup (pivotStep metric acc r) pid wk =
      if pageKey r = pid ∧ weekKeyOf r = wk then some (getMetric r.metrics metric)
      else pivotLookup acc pid wk := by
  induction acc with
  | nil =>
    by_cases h1 : pageKey r = pid
    · by_cases h2 : weekKeyOf r = wk <;>
        simp [pivotStep, pivotLookup, lookupGroup?, h1, h2]
    · simp [pivotStep, pivotLookup, lookupGroup?, h1]
  | cons p rest ih =>
    obtain ⟨pid', row⟩ := p
    by_cases h1 : pageKey r = pid'
    · by_cases h2 : pid' = pid
      · subst h2
        by_cases h3 : weekKeyOf r = wk <;>
          simp [pivotStep, pivotLookup, lookupGroup?, h1, h3, lookupGroup?_setWeekVal]
      · have hk : ¬ pageKey r = pid := fun hh => h2 (h1.symm.trans hh)
        simp [pivotStep, pivotLookup, lookupGroup?, h1, h2, hk]
    · by_cases h2 : pid' = pid
      · subst h2
        simp [pivotStep, pivotLookup, lookupGroup?, h1]
      · have ih' := ih
        simp only [pivotLookup] at ih'
        simp [pivotStep, pivotLookup, lookupGroup?, h1, h2, ih']

theorem getLast?_cons_of_ne_nil {α : Type} (r : α) (xs : List α) (h : xs ≠ []) :
    (r :: xs).getLast? = xs.getLast? := by
  cases xs with
  | nil => exact absurd rfl h
  | cons a t => exact List.getLast?_cons_cons

theorem pivotLookup_foldl (metric : Metric) :
    ∀ (l : List WeeklyPageData) (acc : List (String × PivotRow)) (pid wk : String),
      pivotLookup (l.foldl (pivotStep metric) acc) pid wk =
        if l.filter (fun r => pageKey r = pid ∧ weekKeyOf r = wk) = [] then
          pivotLookup acc pid wk
        else ((l.filter (fun r => pageKey r = pid ∧ weekKeyOf r = wk)).getLast?).map
          (fun r => getMetric r.metrics metric) := by
  intro l
  induction l with
  | nil => intro acc pid wk; simp
  | cons r rs ih =>
    intro acc pid wk
    rw [List.foldl_cons, ih (pivotStep metric acc r) pid wk,
      pivotLookup_pivotStep metric acc r pid wk]
    by_cases h : pageKey r = pid ∧ weekKeyOf r = wk
    · have hcons : (r :: rs).filter (fun x => pageKey x = pid ∧ weekKeyOf x = wk) =
          r :: rs.filter (fun x => pageKey x = pid ∧ weekKeyOf x = wk) := by
        simp [List.filter_cons, h]
      by_cases h2 : rs.filter (fun x => pageKey x = pid ∧ weekKeyOf x = wk) = []
      · rw [if_pos h2, if_pos h, hcons, h2,
          if_neg (List.cons_ne_nil r _)]
        simp
      · rw [if_neg h2, hcons, if_neg (List.cons_ne_nil r _),
          getLast?_cons_of_ne_nil r _ h2]
    · have hcons : (r :: rs).filter (fun x => pageKey x = pid ∧ weekKeyOf x = wk) =
          rs.filter (fun x => pageKey x = pid ∧ weekKeyOf x = wk) := by
        simp [List.filter_cons, h]
      rw [hcons]
      by_cases h2 : rs.filter (fun x => pageKey x = pid ∧ weekKeyOf x = wk) = []
      · rw [if_pos h2, if_pos h2, if_neg h]
      · rw [if_neg h2, if_neg h2]

theorem mem_dedupFirst : ∀ (l : List String) (a : String), a ∈ dedupFirst l ↔ a ∈ l := by
  intro l
  induction l using dedupFirst.induct with
  | case1 => intro a; simp [dedupFirst]
  | case2 x xs ih =>
    intro a
    rw [dedupFirst]
    constructor
    · intro h
      rcases List.mem_cons.mp h with h | h
      · exact h ▸ List.mem_cons_self x xs
      · exact List.mem_cons_of_mem x (List.mem_of_mem_filter ((ih a).mp h))
    · intro h
      rcases List.mem_cons.mp h with h | h
      · exact h ▸ List.mem_cons_self x _
      · by_cases hax : a = x
        · exact hax ▸ List.mem_cons_self x _
        · exact List.mem_cons_of_mem x ((ih a).mpr (List.mem_filter.mpr ⟨h, by simpa using hax⟩))

theorem dedupFirst_nodup : ∀ (l : List String), (dedupFirst l).Nodup := by
  intro l
  induction l using dedupFirst.induct with
  | case1 => simp [dedupFirst]
  | case2 x xs ih =>
    rw [dedupFirst]
    refine List.nodup_cons.mpr ⟨?_, ih⟩
    intro hmem
    have := List.mem_filter.mp ((mem_dedupFirst _ x).mp hmem)
    simp at this

theorem filter_pair_eq_singleton (l : List WeeklyPageData)
    (hp : l.Pairwise (fun a b => ¬(pageKey a = pageKey b ∧ weekKeyOf a = weekKeyOf b)))
    (r : WeeklyPageData) (hr : r ∈ l) :
    l.filter (fun x => pageKey x = pageKey r ∧ weekKeyOf x = weekKeyOf r) = [r] := by
  induction l with
  | nil => cases hr
  | cons a t ih =>
    obtain ⟨hpa, hpt⟩ := List.pairwise_cons.mp hp
    rcases List.mem_cons.mp hr with h | h
    · subst h
      have ht : t.filter (fun x => pageKey x = pageKey r ∧ weekKeyOf x = weekKeyOf r) = [] := by
        apply List.filter_eq_nil.mpr
        intro x hx
        simp only [decide_eq_true_eq]
        rintro ⟨h1, h2⟩
        exact hpa x hx ⟨h1.symm, h2.symm⟩
      have hhead : decide (pageKey r = pageKey r ∧ weekKeyOf r = weekKeyOf r) = true := by
        simp
      rw [List.filter_cons, hhead, if_pos rfl, ht]
    · have hhead : decide (pageKey a = pageKey r ∧ weekKeyOf a = weekKeyOf r) = false := by
        simpa using hpa r h
      rw [List.filter_cons, hhead]
      simpa using ih hpt h

/-- C4: when no two records share `(periodKey, pageId)`, the pivot data maps
every record's page id and period key back to exactly that record's metric
value, and the `weeks` list is the sorted, duplicate-free list of exactly the
period keys occurring in the input. -/
theorem c4_pivotTable_correct (l : List WeeklyPageData) (metric : Metric)
    (huniq : l.Pairwise (fun a b => ¬(pageKey a = pageKey b ∧ weekKeyOf a = weekKeyOf b))) :
    (∀ r ∈ l, pivotLookup (createPivotTable l metric).data (pageKey r) (weekKeyOf r) =
        some (getMetric r.metrics metric)) ∧
    List.Sorted (· ≤ ·) (createPivotTable l metric).weeks ∧
    (createPivotTable l metric).weeks.Nodup ∧
    (∀ k, k ∈ (createPivotTable l metric).weeks ↔ k ∈ l.map weekKeyOf) := by
  refine ⟨?_, ?_, ?_, ?_⟩
  · intro r hr
    have hfil := filter_pair_eq_singleton l huniq r hr
    have h := pivotLookup_foldl metric l [] (pageKey r) (weekKeyOf r)
    rw [hfil] at h
    simpa [createPivotTable] using h
  · exact List.sorted_insertionSort _ _
  · show (List.insertionSort (· ≤ ·) (dedupFirst (l.map weekKeyOf))).Nodup
    exact ((List.perm_insertionSort (· ≤ ·) (dedupFirst (l.map weekKeyOf))).nodup_iff).mpr
      (dedupFirst_nodup _)
  · intro k
    show k ∈ List.insertionSort _ (dedupFirst (l.map weekKeyOf)) ↔ _
    rw [(List.perm_insertionSort _ _).mem_iff, mem_dedupFirst]

/-- C4 witness: in the three-record demo the pivot returns record values at
their `(page, week)` coordinates and lists the sorted period keys. -/
theorem c4_pivotTable_witness :
    pivotLookup (createPivotTable pivotDemo Metric.reach).data "P1" "2025_41" = some 100 ∧
    pivotLookup (createPivotTable pivotDemo Metric.reach).data "P1" "2025_42" = some 300 ∧
    pivotLookup (createPivotTable pivotDemo Metric.reach).data "P2" "2025_41" = some 200 := by
  have h := (c4_pivotTable_correct pivotDemo Metric.reach (by decide)).1
  refine ⟨?_, ?_, ?_⟩
  · exact h (mkRecord "P1" "Page One" 2025 41 "2025-10-06" "2025-10-12" 100 500) (by decide)
  · exact h (mkRecord "P1" "Page One" 2025 42 "2025-10-13" "2025-10-19" 300 700) (by decide)
  · exact h (mkRecord "P2" "Page Two" 2025 41 "2025-10-06" "2025-10-12" 200 600) (by decide)

/-!  ## Claim C6  -/

theorem headRun_exists : ∀ (l : List ℤ), l ≠ [] →
    ∃ c l₂, l = c ++ l₂ ∧ List.Chain' (· < ·) c ∧ c.length = headRun l + 1 := by
  intro l
  induction l with
  | nil => intro h; exact absurd rfl h
  | cons x t ih =>
    intro _
    cases t with
    | nil => exact ⟨[x], [], rfl, List.chain'_singleton x, rfl⟩
    | cons y t' =>
      by_cases hxy : x < y
      · obtain ⟨c, l₂, heq, hchain, hlen⟩ := ih (List.cons_ne_nil y t')
        cases c with
        | nil => simp [headRun] at hlen
        | cons c0 cs =>
          injection heq with h0 h1
          refine ⟨x :: c0 :: cs, l₂, ?_, ?_, ?_⟩
          · show x :: (y :: t') = x :: ((c0 :: cs) ++ l₂)
            rw [h0, h1]
            rfl
          · exact List.chain'_cons.mpr ⟨h0 ▸ hxy, hchain⟩
          · simp only [List.length_cons] at hlen ⊢
            rw [show headRun (x :: y :: t') = headRun (y :: t') + 1 from by
              simp [headRun, hxy]]
            omega
      · exact ⟨[x], y :: t', rfl, List.chain'_singleton x, by simp [headRun, hxy]⟩

theorem chain'_prefix_le_headRun : ∀ (c l₂ : List ℤ), List.Chain' (· < ·) c →
    c.length ≤ headRun (c ++ l₂) + 1 := by
  intro c
  induction c with
  | nil => intro l₂ _; simp
  | cons a tail ih =>
    intro l₂ hchain
    cases tail with
    | nil => exact Nat.succ_le_succ (Nat.zero_le _)
    | cons b c'' =>
      obtain ⟨hab, hch⟩ := List.chain'_cons.mp hchain
      have h1 := ih l₂ hch
      have hh : headRun ((a :: b :: c'') ++ l₂) = headRun ((b :: c'') ++ l₂) + 1 := by
        simp [headRun, hab]
      simp only [List.length_cons] at h1 ⊢
      omega

theorem headRun_le_bestRun : ∀ (l : List ℤ), headRun l ≤ bestRun l := by
  intro l
  cases l with
  | nil => exact le_refl 0
  | cons x t => exact le_max_left _ _

theorem bestRun_exists : ∀ (l : List ℤ), l ≠ [] →
    ∃ l₁ c l₂, l = l₁ ++ (c ++ l₂) ∧ List.Chain' (· < ·) c ∧
      c.length = bestRun l + 1 := by
  intro l
  induction l with
  | nil => intro h; exact absurd rfl h
  | cons x t ih =>
    intro _
    by_cases hcase : bestRun (x :: t) = headRun (x :: t)
    · obtain ⟨c, l₂, heq, hch, hlen⟩ := headRun_exists (x :: t) (List.cons_ne_nil x t)
      exact ⟨[], c, l₂, by simpa using heq, hch, by rw [hlen, hcase]⟩
    · have hmax : bestRun (x :: t) = max (headRun (x :: t)) (bestRun t) := rfl
      have hb : bestRun (x :: t) = bestRun t := by
        rcases max_choice (headRun (x :: t)) (bestRun t) with h | h
        · exact absurd (hmax.trans h) hcase
        · exact hmax.trans h
      have ht : t ≠ [] := by
        intro h0
        subst h0
        simp [bestRun, headRun] at hcase
      obtain ⟨l₁, c, l₂, heq, hch, hlen⟩ := ih ht
      refine ⟨x :: l₁, c, l₂, ?_, hch, by rw [hlen, hb]⟩
      show x :: t = x :: (l₁ ++ (c ++ l₂))
      rw [heq]

theorem bestRun_le : ∀ (l₁ c l₂ : List ℤ), List.Chain' (· < ·) c →
    c.length ≤ bestRun (l₁ ++ (c ++ l₂)) + 1 := by
  intro l₁
  induction l₁ with
  | nil =>
    intro c l₂ hch
    simp only [List.nil_append]
    calc c.length ≤ headRun (c ++ l₂) + 1 := chain'_prefix_le_headRun c l₂ hch
      _ ≤ bestRun (c ++ l₂) + 1 := Nat.succ_le_succ (headRun_le_bestRun (c ++ l₂))
  | cons a l₁' ih =>
    intro c l₂ hch
    calc c.length ≤ bestRun (l₁' ++ (c ++ l₂)) + 1 := ih c l₂ hch
      _ ≤ max (headRun ((a :: l₁') ++ (c ++ l₂))) (bestRun (l₁' ++ (c ++ l₂))) + 1 :=
        Nat.succ_le_succ (le_max_right _ _)
      _ = bestRun ((a :: l₁') ++ (c ++ l₂)) + 1 := rfl

theorem runLoop_eq : ∀ (vs : List ℤ) (prev : ℤ) (streak maxRun : ℕ),
    streak ≤ maxRun →
    runLoop prev streak maxRun vs =
      max maxRun (max (streak + headRun (prev :: vs)) (bestRun vs)) := by
  intro vs
  induction vs with
  | nil =>
    intro prev streak maxRun h
    simp only [runLoop, headRun, bestRun]
    omega
  | cons v vt ih =>
    intro prev streak maxRun h
    by_cases hpv : prev < v
    · rw [show runLoop prev streak maxRun (v :: vt) =
          runLoop v (streak + 1) (max maxRun (streak + 1)) vt from by
        simp [runLoop, hpv]]
      rw [ih v (streak + 1) (max maxRun (streak + 1)) (le_max_right _ _)]
      have hh : headRun (prev :: v :: vt) = headRun (v :: vt) + 1 := by
        simp [headRun, hpv]
      have hb : bestRun (v :: vt) = max (headRun (v :: vt)) (bestRun vt) := rfl
      omega
    · rw [show runLoop prev streak maxRun (v :: vt) = runLoop v 0 maxRun vt from by
        simp [runLoop, hpv]]
      rw [ih v 0 maxRun (Nat.zero_le _)]
      have hh : headRun (prev :: v :: vt) = 0 := by
        simp [headRun, hpv]
      have hb : bestRun (v :: vt) = max (headRun (v :: vt)) (bestRun vt) := rfl
      omega

theorem maxGrowthRun_eq_bestRun : ∀ (l : List ℤ), maxGrowthRun l = bestRun l := by
  intro l
  cases l with
  | nil => rfl
  | cons v vs =>
    rw [show maxGrowthRun (v :: vs) = runLoop v 0 0 vs from rfl,
      runLoop_eq vs v 0 0 (le_refl 0)]
    have hb : bestRun (v :: vs) = max (headRun (v :: vs)) (bestRun vs) := rfl
    omega

/-- The loop in `findConsistentGrowth` computes exactly the longest strictly
increasing run of consecutive values, counted in steps. -/
theorem longestRunIs_maxGrowthRun (vals : List ℤ) :
    LongestRunIs vals (maxGrowthRun vals) := by
  constructor
  · intro hne
    obtain ⟨l₁, c, l₂, heq, hch, hlen⟩ := bestRun_exists vals hne
    exact ⟨l₁, c, l₂, heq, hch, by rw [hlen, maxGrowthRun_eq_bestRun]⟩
  · intro l₁ c l₂ heq hch
    rw [maxGrowthRun_eq_bestRun, heq]
    exact bestRun_le l₁ c l₂ hch

theorem charListLe_total : ∀ (a b : List Char),
    charListLe a b = true ∨ charListLe b a = true := by
  intro a
  induction a with
  | nil => intro b; exact Or.inl rfl
  | cons x xs ih =>
    intro b
    cases b with
    | nil => exact Or.inr rfl
    | cons y ys =>
      by_cases hxy : x.toNat < y.toNat
      · exact Or.inl (by simp [charListLe, hxy])
      · by_cases hyx : y.toNat < x.toNat
        · exact Or.inr (by simp [charListLe, hyx])
        · rcases ih ys with h | h
          · exact Or.inl (by simp [charListLe, hxy, hyx, h])
          · exact Or.inr (by simp [charListLe, hxy, hyx, h])

theorem charListLe_trans : ∀ (a b c : List Char),
    charListLe a b = true → charListLe b c = true → charListLe a c = true := by
  intro a
  induction a with
  | nil => intro b c _ _; rfl
  | cons x xs ih =>
    intro b c hab hbc
    cases b with
    | nil => simp [charListLe] at hab
    | cons y ys =>
      cases c with
      | nil => simp [charListLe] at hbc
      | cons z zs =>
        simp only [charListLe] at hab hbc ⊢
        by_cases hxy : x.toNat < y.toNat
        · by_cases hyz : y.toNat < z.toNat
          · rw [if_pos (by omega)]
          · by_cases hzy : z.toNat < y.toNat
            · rw [if_neg hyz, if_pos hzy] at hbc
              exact absurd hbc (by simp)
            · rw [if_pos (by omega)]
        · by_cases hyx : y.toNat < x.toNat
          · rw [if_neg hxy, if_pos hyx] at hab
            exact absurd hab (by simp)
          · rw [if_neg hxy, if_neg hyx] at hab
            by_cases hyz : y.toNat < z.toNat
            · rw [if_pos (by omega)]
            · by_cases hzy : z.toNat < y.toNat
              · rw [if_neg hyz, if_pos hzy] at hbc
                exact absurd hbc (by simp)
              · rw [if_neg hyz, if_neg hzy] at hbc
                rw [if_neg (by omega), if_neg (by omega)]
                exact ih ys zs hab hbc

/-- C6: `findConsistentGrowth` returns exactly the pages having at least
`minWeeks + 1` records whose longest strictly increasing run over the
startDate-sorted metric values reaches `minWeeks`, reporting that run length
and the page's record count, sorted descending by run length; the run length
is the genuine longest-run of the chronologically sorted values. -/
theorem c6_findConsistentGrowth_correct (dataByPage : List (String × List WeeklyPageData))
    (metric : Metric) (minWeeks : ℕ) :
    List.Sorted (fun a b : GrowthEntry => b.consecutiveWeeks ≤ a.consecutiveWeeks)
      (findConsistentGrowth dataByPage metric minWeeks) ∧
    (∀ e ∈ findConsistentGrowth dataByPage metric minWeeks,
      ∃ kv ∈ dataByPage, minWeeks + 1 ≤ kv.2.length ∧ minWeeks ≤ pageRun metric kv.2 ∧
        e = growthEntryOf metric kv.2) ∧
    (∀ kv ∈ dataByPage, minWeeks + 1 ≤ kv.2.length → minWeeks ≤ pageRun metric kv.2 →
      growthEntryOf metric kv.2 ∈ findConsistentGrowth dataByPage metric minWeeks) ∧
    (∀ pd : List WeeklyPageData, (sortByStartDate pd).Perm pd ∧
      List.Sorted (fun a b : WeeklyPageData =>
        charListLe a.period.startDate.data b.period.startDate.data = true)
        (sortByStartDate pd) ∧
      (growthEntryOf metric pd).totalWeeks = pd.length ∧
      (growthEntryOf metric pd).consecutiveWeeks = pageRun metric pd) ∧
    (∀ pd : List WeeklyPageData,
      LongestRunIs ((sortByStartDate pd).map (fun r => getMetric r.metrics metric))
        (pageRun metric pd)) := by
  haveI hgt : IsTotal GrowthEntry
      (fun a b : GrowthEntry => b.consecutiveWeeks ≤ a.consecutiveWeeks) :=
    ⟨fun a b => le_total b.consecutiveWeeks a.consecutiveWeeks⟩
  haveI hgtr : IsTrans GrowthEntry
      (fun a b : GrowthEntry => b.consecutiveWeeks ≤ a.consecutiveWeeks) :=
    ⟨fun _ _ _ h1 h2 => le_trans h2 h1⟩
  haveI hst : IsTotal WeeklyPageData (fun a b : WeeklyPageData =>
      charListLe a.period.startDate.data b.period.startDate.data = true) :=
    ⟨fun a b => charListLe_total _ _⟩
  haveI hstr : IsTrans WeeklyPageData (fun a b : WeeklyPageData =>
      charListLe a.period.startDate.data b.period.startDate.data = true) :=
    ⟨fun _ _ _ h1 h2 => charListLe_trans _ _ _ h1 h2⟩
  refine ⟨List.sorted_insertionSort _ _, ?_, ?_, ?_, ?_⟩
  · intro e he
    obtain ⟨kv, hkv, hf⟩ := List.mem_filterMap.mp
      ((List.perm_insertionSort _ _).mem_iff.mp he)
    by_cases h1 : kv.2.length < minWeeks + 1
    · rw [if_pos h1] at hf
      exact absurd hf (by simp)
    · by_cases h2 : minWeeks ≤ pageRun metric kv.2
      · rw [if_neg h1, if_pos h2] at hf
        exact ⟨kv, hkv, by omega, h2, (Option.some_injective _ hf).symm⟩
      · rw [if_neg h1, if_neg h2] at hf
        exact absurd hf (by simp)
  · intro kv hkv h1 h2
    apply (List.perm_insertionSort _ _).mem_iff.mpr
    apply List.mem_filterMap.mpr
    exact ⟨kv, hkv, by rw [if_neg (by omega), if_pos h2]⟩
  · intro pd
    refine ⟨List.perm_insertionSort _ _, List.sorted_insertionSort _ _, ?_, rfl⟩
    exact (List.perm_insertionSort _ _).length_eq
  · intro pd
    exact longestRunIs_maxGrowthRun _

/-- C6 witness: with `minWeeks = 2` and chronological engagements
`[10, 20, 30, 25]`, page `P1` is detected with `consecutiveWeeks = 2` out of
`totalWeeks = 4`. -/
theorem c6_findConsistentGrowth_witness :
    growthEntryOf Metric.engagements growthPage ∈
      findConsistentGrowth growthDemo Metric.engagements 2 ∧
    (growthEntryOf Metric.engagements growthPage).consecutiveWeeks = 2 ∧
    (growthEntryOf Metric.engagements growthPage).totalWeeks = 4 := by
  have h := (c6_findConsistentGrowth_correct growthDemo Metric.engagements 2).2.2.1
  exact ⟨h ("P1", growthPage) (by decide) (by decide) (by decide), by decide, by decide⟩
